import Mathlib

/-!
Shallow embedding of the `update_file` tool core of the filesystem-mcp-server
repository (`src/mcp-server/tools/updateFile/updateFileLogic.ts`).

Strings are modelled as `List Char`.  The diff parser embeds the JavaScript
regular expression

  `<<<<<<< SEARCH\r?\n([\s\S]*?)\r?\n=======\r?\n([\s\S]*?)\r?\n>>>>>>> REPLACE`

executed repeatedly with the `g` flag (`exec` loop): the scanner tries each
start position left to right; the two capture groups are lazy, so the engine
prefers the shortest group extents (group 1 having priority over group 2), and
`\r?\n` is deterministic (consume `\r\n` if present, else `\n`, else fail).
The filesystem is modelled as a partial map from path strings to file
contents; `serverState.resolvePath` is an abstract parameter; the
human-readable `message` field of the output and the logger calls are not
modelled (no claim depends on them).
-/

namespace FsMcp

/-- The SEARCH-open delimiter token of the diff mini-language. -/
def searchMarker : List Char := "<<<<<<< SEARCH".data

/-- The separator delimiter token. -/
def sepMarker : List Char := "=======".data

/-- The REPLACE-close delimiter token. -/
def replaceMarker : List Char := ">>>>>>> REPLACE".data

/-- One parsed search/replace block (interface `DiffBlock` in the source). -/
structure DiffBlock where
  search : List Char
  replace : List Char
  applied : Bool
deriving DecidableEq, Repr

/-- `\r?\n` of the block regex: consume `\r\n` if present, else `\n`, else
fail.  (The greedy optional `\r` admits no other behaviour: `\n` cannot match
a `\r` character.) -/
def dropCRLF : List Char → Option (List Char)
  | '\r' :: '\n' :: rest => some rest
  | '\n' :: rest => some rest
  | _ => none

/-- Strip a literal token from the front of a character list, returning the
remainder; `none` when the token is not a prefix. -/
def dropMarker : List Char → List Char → Option (List Char)
  | [], s => some s
  | _ :: _, [] => none
  | m :: ms, c :: cs => if c = m then dropMarker ms cs else none

/-- Attempt `\r?\n>>>>>>> REPLACE` at exactly the current position, returning
the remainder after the marker. -/
def hereRep (s : List Char) : Option (List Char) :=
  match dropCRLF s with
  | none => none
  | some t => dropMarker replaceMarker t

/-- The lazy group-2 search: find the least extension of the replace text at
which `\r?\n>>>>>>> REPLACE` matches; returns (replace text, remainder after
the close marker). -/
def findRep : List Char → Option (List Char × List Char)
  | [] => none
  | c :: rest =>
    match hereRep (c :: rest) with
    | some after => some ([], after)
    | none => (findRep rest).map fun x => (c :: x.1, x.2)

/-- Attempt `\r?\n=======\r?\n` at exactly the current position followed by a
successful group-2 search; returns (replace text, remainder). -/
def hereSep (s : List Char) : Option (List Char × List Char) :=
  match dropCRLF s with
  | none => none
  | some t =>
    match dropMarker sepMarker t with
    | none => none
    | some u =>
      match dropCRLF u with
      | none => none
      | some v => findRep v

/-- The lazy group-1 search with full backtracking: find the least extension
of the search text whose separator position lets the rest of the pattern
match; returns (search text, replace text, remainder after the block). -/
def findSepRep : List Char → Option (List Char × List Char × List Char)
  | [] => none
  | c :: rest =>
    match hereSep (c :: rest) with
    | some x => some ([], x.1, x.2)
    | none => (findSepRep rest).map fun x => (c :: x.1, x.2)

/-- Match the whole block pattern anchored at the current position. -/
def matchBlockAt (s : List Char) : Option (List Char × List Char × List Char) :=
  match dropMarker searchMarker s with
  | none => none
  | some t =>
    match dropCRLF t with
    | none => none
    | some u => findSepRep u

/-- The `exec` loop of `parseDiff`: scan left to right; on a match emit the
block and continue after it, otherwise advance one character.  `fuel` bounds
the recursion (structural); `parseDiff` supplies `s.length`, which always
suffices. -/
def scanGo : Nat → List Char → List DiffBlock
  | 0, _ => []
  | _ + 1, [] => []
  | fuel + 1, c :: rest =>
    match matchBlockAt (c :: rest) with
    | some x => { search := x.1, replace := x.2.1, applied := false } :: scanGo fuel x.2.2
    | none => scanGo fuel rest

/-- `parseDiff` of the source: extract all blocks of the diff text, in input
order.  (The source's warning log on zero blocks from non-blank input is not
modelled.) -/
def parseDiff (diffContent : List Char) : List DiffBlock :=
  scanGo diffContent.length diffContent

/-- `updatedContent.indexOf(block.search)` followed by the single splice
`updatedContent.substring(0, index) + block.replace +
updatedContent.substring(index + block.search.length)`: replace the first
(leftmost) occurrence; `none` when the search text does not occur.  (As in
JavaScript, an empty search text matches at index 0.) -/
def replaceFirst (se rep : List Char) : List Char → Option (List Char)
  | [] =>
    match dropMarker se [] with
    | some t => some (rep ++ t)
    | none => none
  | c :: rest =>
    match dropMarker se (c :: rest) with
    | some t => some (rep ++ t)
    | none => (replaceFirst se rep rest).map fun x => c :: x

/-- The `for (const block of diffBlocks)` loop: fold the blocks over the
working buffer, counting applied and failed blocks.  (The source also flips
`block.applied` to `true` on success; no claim inspects that flag, so the
mutated block list is not returned.) -/
def applyBlocksLoop : List Char → Nat → Nat → List DiffBlock → List Char × Nat × Nat
  | buf, a, f, [] => (buf, a, f)
  | buf, a, f, b :: rest =>
    match replaceFirst b.search b.replace buf with
    | some newBuf => applyBlocksLoop newBuf (a + 1) f rest
    | none => applyBlocksLoop buf a (f + 1) rest

/-- The block applicator: start from the file content with both counters 0. -/
def applyBlocks (buf : List Char) (blocks : List DiffBlock) : List Char × Nat × Nat :=
  applyBlocksLoop buf 0 0 blocks

/-- Error taxonomy used by the tool (`BaseErrorCode` of `types-global`). -/
inductive BaseErrorCode where
  | NOT_FOUND
  | VALIDATION_ERROR
  | INTERNAL_ERROR
deriving DecidableEq, Repr

/-- The success payload (`UpdateFileOutput` minus the human-readable
`message` string, which no claim inspects). -/
structure UpdateFileOutput where
  updatedPath : String
  blocksApplied : Nat
  blocksFailed : Nat
deriving DecidableEq, Repr

/-- `updateFileLogic` of the source.  `resolve` abstracts
`serverState.resolvePath`; `fs` is the filesystem as a partial map from paths
to contents.  Returns the thrown error or the success output, paired with the
filesystem after the call (writes are modelled as always succeeding; I/O
errors other than a missing target file are not modelled). -/
def updateFileLogic (resolve : String → String) (fs : String → Option (List Char))
    (path : String) (diff : List Char) :
    Except BaseErrorCode UpdateFileOutput × (String → Option (List Char)) :=
  let absolutePath := resolve path
  match fs absolutePath with
  | none => (Except.error BaseErrorCode.NOT_FOUND, fs)
  | some currentContent =>
    let diffBlocks := parseDiff diff
    if diffBlocks.length = 0 then
      (Except.ok { updatedPath := absolutePath, blocksApplied := 0, blocksFailed := 0 }, fs)
    else
      let r := applyBlocks currentContent diffBlocks
      if 0 < r.2.1 then
        (Except.ok { updatedPath := absolutePath, blocksApplied := r.2.1, blocksFailed := r.2.2 },
          fun p => if p = absolutePath then some r.1 else fs p)
      else
        (Except.ok { updatedPath := absolutePath, blocksApplied := 0, blocksFailed := r.2.2 }, fs)

/-- A newline as consumed by `\r?\n`: either a bare LF or a CRLF pair. -/
def nlOK (n : List Char) : Prop := n = ['\n'] ∨ n = ['\r', '\n']

/-- A whitespace character (as matchable by the regex class `\s`, restricted
to the four ASCII whitespace characters used in the spec's examples). -/
def isWhite (c : Char) : Prop := c = ' ' ∨ c = '\t' ∨ c = '\n' ∨ c = '\r'

/-- Does `needle` occur as a contiguous segment of `hay`? -/
def containsSeg (needle : List Char) : List Char → Bool
  | [] => (dropMarker needle []).isSome
  | c :: t => (dropMarker needle (c :: t)).isSome || containsSeg needle t

/-- The character window whose occurrence inside a search text makes the
lazy group-1 scan stop early: a separator line (LF flavour). -/
def sepWindow : List Char := '\n' :: sepMarker ++ ['\n']

/-- The character window whose occurrence inside a replace text makes the
lazy group-2 scan stop early: a newline followed by the close marker. -/
def repWindow : List Char := '\n' :: replaceMarker

/-- A well-formed block body, as required for the parsing round-trip: no
carriage returns, no separator line embedded in the search text (including
at its very end), and no close-marker line embedded in the replace text. -/
def wfBlock (se re : List Char) : Prop :=
  (∀ c ∈ se, c ≠ '\r') ∧ (∀ c ∈ re, c ≠ '\r') ∧
    containsSeg sepWindow (se ++ ['\n']) = false ∧
    containsSeg repWindow re = false

instance (se re : List Char) : Decidable (wfBlock se re) := by
  unfold wfBlock; infer_instance

instance (c : Char) : Decidable (isWhite c) := by
  unfold isWhite; infer_instance

/-- Render one well-formed block triple in the three-marker wire format,
using LF line endings. -/
def renderBlock (se re : List Char) : List Char :=
  searchMarker ++ '\n' :: se ++ '\n' :: sepMarker ++ '\n' :: re ++ '\n' :: replaceMarker

/-- Concatenate block triples, each preceded by its own interstitial
whitespace segment. -/
def renderSeq : List (List Char × List Char × List Char) → List Char
  | [] => []
  | x :: rest => x.1 ++ renderBlock x.2.1 x.2.2 ++ renderSeq rest

/-! ### Helper lemmas about the matcher -/

theorem dropMarker_eq_some (m : List Char) : ∀ s t, dropMarker m s = some t ↔ s = m ++ t := by
  induction m with
  | nil => intro s t; simp [dropMarker]
  | cons a ms ih =>
    intro s t
    cases s with
    | nil => simp [dropMarker]
    | cons c cs =>
      simp only [dropMarker, List.cons_append]
      by_cases h : c = a
      · subst h; simp [ih]
      · simp [h]

theorem dropCRLF_eq_some : ∀ {s t : List Char}, dropCRLF s = some t →
    s = '\n' :: t ∨ s = '\r' :: '\n' :: t := by
  intro s t h
  unfold dropCRLF at h
  split at h
  · right; cases h; rfl
  · left; cases h; rfl
  · cases h

theorem dropCRLF_lf (t : List Char) : dropCRLF ('\n' :: t) = some t := rfl

theorem hereRep_sound {s a : List Char} (h : hereRep s = some a) :
    ∃ n, nlOK n ∧ s = n ++ replaceMarker ++ a := by
  unfold hereRep at h
  split at h
  · cases h
  · next t ht =>
    rcases dropCRLF_eq_some ht with h1 | h1
    · exact ⟨['\n'], Or.inl rfl, by rw [h1, (dropMarker_eq_some _ _ _).mp h]; rfl⟩
    · exact ⟨['\r', '\n'], Or.inr rfl, by rw [h1, (dropMarker_eq_some _ _ _).mp h]; rfl⟩

theorem findRep_sound : ∀ {s r a : List Char}, findRep s = some (r, a) →
    ∃ n, nlOK n ∧ s = r ++ n ++ replaceMarker ++ a := by
  intro s
  induction s with
  | nil => intro r a h; cases h
  | cons c rest ih =>
    intro r a h
    unfold findRep at h
    split at h
    · next after hafter =>
      obtain ⟨n, hn, hs⟩ := hereRep_sound hafter
      cases h
      exact ⟨n, hn, by simpa using hs⟩
    · rw [Option.map_eq_some'] at h
      obtain ⟨⟨r2, a2⟩, hfr, heq⟩ := h
      obtain ⟨n, hn, hs⟩ := ih hfr
      cases heq
      exact ⟨n, hn, by simp [hs]⟩

theorem hereSep_sound {s r a : List Char} (h : hereSep s = some (r, a)) :
    ∃ n1 n2 n3, nlOK n1 ∧ nlOK n2 ∧ nlOK n3 ∧
      s = n1 ++ sepMarker ++ n2 ++ r ++ n3 ++ replaceMarker ++ a := by
  unfold hereSep at h
  split at h
  · cases h
  · next t ht =>
    split at h
    · cases h
    · next u hu =>
      split at h
      · cases h
      · next v hv =>
        obtain ⟨n3, hn3, hs3⟩ := findRep_sound h
        have hu2 := (dropMarker_eq_some _ _ _).mp hu
        rcases dropCRLF_eq_some ht with he1 | he1 <;>
          rcases dropCRLF_eq_some hv with he2 | he2
        · exact ⟨['\n'], ['\n'], n3, Or.inl rfl, Or.inl rfl, hn3, by
            rw [he1, hu2, he2, hs3]; simp⟩
        · exact ⟨['\n'], ['\r', '\n'], n3, Or.inl rfl, Or.inr rfl, hn3, by
            rw [he1, hu2, he2, hs3]; simp⟩
        · exact ⟨['\r', '\n'], ['\n'], n3, Or.inr rfl, Or.inl rfl, hn3, by
            rw [he1, hu2, he2, hs3]; simp⟩
        · exact ⟨['\r', '\n'], ['\r', '\n'], n3, Or.inr rfl, Or.inr rfl, hn3, by
            rw [he1, hu2, he2, hs3]; simp⟩

theorem findSepRep_sound : ∀ {s se r a : List Char}, findSepRep s = some (se, r, a) →
    ∃ n1 n2 n3, nlOK n1 ∧ nlOK n2 ∧ nlOK n3 ∧
      s = se ++ n1 ++ sepMarker ++ n2 ++ r ++ n3 ++ replaceMarker ++ a := by
  intro s
  induction s with
  | nil => intro se r a h; cases h
  | cons c rest ih =>
    intro se r a h
    unfold findSepRep at h
    split at h
    · next x hx =>
      obtain ⟨n1, n2, n3, h1, h2, h3, hs⟩ := hereSep_sound hx
      cases h
      exact ⟨n1, n2, n3, h1, h2, h3, by simpa using hs⟩
    · rw [Option.map_eq_some'] at h
      obtain ⟨⟨se2, ra2⟩, hfr, heq⟩ := h
      obtain ⟨n1, n2, n3, h1, h2, h3, hs⟩ := ih hfr
      cases heq
      exact ⟨n1, n2, n3, h1, h2, h3, by simp [hs]⟩

theorem matchBlockAt_sound {s se r a : List Char} (h : matchBlockAt s = some (se, r, a)) :
    ∃ n0 n1 n2 n3, nlOK n0 ∧ nlOK n1 ∧ nlOK n2 ∧ nlOK n3 ∧
      s = searchMarker ++ n0 ++ se ++ n1 ++ sepMarker ++ n2 ++ r ++ n3 ++ replaceMarker ++ a := by
  unfold matchBlockAt at h
  split at h
  · cases h
  · next t ht =>
    split at h
    · cases h
    · next u hu =>
      obtain ⟨n1, n2, n3, h1, h2, h3, hs⟩ := findSepRep_sound h
      have ht2 := (dropMarker_eq_some _ _ _).mp ht
      rcases dropCRLF_eq_some hu with he | he
      · exact ⟨['\n'], n1, n2, n3, Or.inl rfl, h1, h2, h3, by rw [ht2, he, hs]; simp⟩
      · exact ⟨['\r', '\n'], n1, n2, n3, Or.inr rfl, h1, h2, h3, by rw [ht2, he, hs]; simp⟩

theorem nlOK_length {n : List Char} (h : nlOK n) : 0 < n.length := by
  rcases h with h | h <;> subst h <;> simp

theorem matchBlockAt_length {s se r a : List Char} (h : matchBlockAt s = some (se, r, a)) :
    a.length < s.length := by
  obtain ⟨n0, n1, n2, n3, h0, h1, h2, h3, hs⟩ := matchBlockAt_sound h
  have l0 := nlOK_length h0
  rw [hs]
  simp only [List.length_append]
  omega

/-! ### Fuel elimination and unfolding equations for `parseDiff` -/

theorem scanGo_succ : ∀ (fuel : Nat) (s : List Char), s.length ≤ fuel →
    scanGo (fuel + 1) s = scanGo fuel s := by
  intro fuel
  induction fuel with
  | zero =>
    intro s hs
    have : s = [] := List.length_eq_zero.mp (Nat.le_zero.mp hs)
    subst this; rfl
  | succ f ih =>
    intro s hs
    cases s with
    | nil => rfl
    | cons c rest =>
      cases hm : matchBlockAt (c :: rest) with
      | some x =>
        obtain ⟨se, r, a⟩ := x
        show scanGo (f + 1 + 1) (c :: rest) = scanGo (f + 1) (c :: rest)
        simp only [scanGo, hm]
        congr 1
        apply ih
        have h1 := matchBlockAt_length hm
        simp only [List.length_cons] at hs h1
        omega
      | none =>
        show scanGo (f + 1 + 1) (c :: rest) = scanGo (f + 1) (c :: rest)
        simp only [scanGo, hm]
        apply ih
        simp only [List.length_cons] at hs
        omega

theorem scanGo_eq_parseDiff : ∀ (fuel : Nat) (s : List Char), s.length ≤ fuel →
    scanGo fuel s = parseDiff s := by
  intro fuel
  induction fuel with
  | zero =>
    intro s hs
    have : s = [] := List.length_eq_zero.mp (Nat.le_zero.mp hs)
    subst this; rfl
  | succ f ih =>
    intro s hs
    by_cases h : s.length ≤ f
    · rw [scanGo_succ f s h, ih s h]
    · have hl : s.length = f + 1 := by omega
      unfold parseDiff
      rw [hl]

theorem parseDiff_nil : parseDiff [] = [] := rfl

theorem parseDiff_cons_some {s se r a : List Char} (h : matchBlockAt s = some (se, r, a)) :
    parseDiff s = { search := se, replace := r, applied := false } :: parseDiff a := by
  cases s with
  | nil => cases h
  | cons c rest =>
    show scanGo (rest.length + 1) (c :: rest) = _
    simp only [scanGo, h]
    congr 1
    apply scanGo_eq_parseDiff
    have h1 := matchBlockAt_length h
    simp only [List.length_cons] at h1
    omega

theorem parseDiff_cons_none {c : Char} {rest : List Char} (h : matchBlockAt (c :: rest) = none) :
    parseDiff (c :: rest) = parseDiff rest := by
  show scanGo (rest.length + 1) (c :: rest) = _
  simp only [scanGo, h]
  exact scanGo_eq_parseDiff rest.length rest le_rfl

theorem matchBlockAt_cons_none {c : Char} {s : List Char} (hc : c ≠ '<') :
    matchBlockAt (c :: s) = none := by
  unfold matchBlockAt
  have hm : searchMarker = '<' :: "<<<<<< SEARCH".data := by decide
  have : dropMarker searchMarker (c :: s) = none := by
    rw [hm]
    simp [dropMarker, hc]
  rw [this]

theorem parseDiff_skip {ws : List Char} (hws : ∀ c ∈ ws, c ≠ '<') (t : List Char) :
    parseDiff (ws ++ t) = parseDiff t := by
  induction ws with
  | nil => rfl
  | cons c w ih =>
    rw [List.cons_append, parseDiff_cons_none (matchBlockAt_cons_none (hws c (by simp)))]
    exact ih fun d hd => hws d (by simp [hd])

/-! ### Occurrence lemmas for `containsSeg` -/

theorem containsSeg_here {n hay : List Char} (h : ∃ t, hay = n ++ t) :
    containsSeg n hay = true := by
  obtain ⟨t, ht⟩ := h
  have hd : dropMarker n hay = some t := (dropMarker_eq_some _ _ _).mpr ht
  cases hay with
  | nil => simp [containsSeg, hd]
  | cons c u => simp [containsSeg, hd]

theorem containsSeg_cons {n : List Char} {c : Char} {t : List Char}
    (h : containsSeg n t = true) : containsSeg n (c :: t) = true := by
  simp [containsSeg, h]

theorem containsSeg_decomp (n pre post : List Char) :
    containsSeg n (pre ++ n ++ post) = true := by
  induction pre with
  | nil => exact containsSeg_here ⟨post, by simp⟩
  | cons c p ih =>
    rw [List.cons_append, List.cons_append]
    exact containsSeg_cons ih

theorem containsSeg_cons_false {n : List Char} {c : Char} {t : List Char}
    (h : containsSeg n (c :: t) = false) : containsSeg n t = false := by
  rcases h2 : containsSeg n t with _ | _
  · rfl
  · rw [containsSeg_cons h2] at h; cases h

/-! ### Completeness: parsing a rendered well-formed block -/

theorem findRep_append : ∀ (re rest : List Char), (∀ c ∈ re, c ≠ '\r') →
    containsSeg repWindow re = false →
    findRep (re ++ ('\n' :: (replaceMarker ++ rest))) = some (re, rest) := by
  intro re
  induction re with
  | nil =>
    intro rest _ _
    show findRep ('\n' :: (replaceMarker ++ rest)) = some ([], rest)
    have h2 : dropMarker replaceMarker (replaceMarker ++ rest) = some rest :=
      (dropMarker_eq_some _ _ _).mpr rfl
    have h1 : hereRep ('\n' :: (replaceMarker ++ rest)) = some rest := by
      simp [hereRep, dropCRLF_lf, h2]
    simp [findRep, h1]
  | cons c re2 ih =>
    intro rest hcr hwin
    have hnone : hereRep (c :: (re2 ++ ('\n' :: (replaceMarker ++ rest)))) = none := by
      cases hh : hereRep (c :: (re2 ++ ('\n' :: (replaceMarker ++ rest)))) with
      | none => rfl
      | some a =>
        exfalso
        obtain ⟨n, hn, hs⟩ := hereRep_sound hh
        rcases hn with hn | hn
        · subst hn
          simp only [List.cons_append, List.nil_append, List.append_assoc] at hs
          injection hs with hc hs2
          rcases List.append_eq_append_iff.mp hs2 with ⟨w, hw1, hw2⟩ | ⟨w, hw1, hw2⟩
          · cases w with
            | nil =>
              have hre : re2 = replaceMarker := by simpa using hw1.symm
              have : containsSeg repWindow (c :: re2) = true := by
                apply containsSeg_here
                exact ⟨[], by rw [hc, hre, repWindow]; simp⟩
              rw [this] at hwin; cases hwin
            | cons d w2 =>
              have hd : d ∈ replaceMarker := by rw [hw1]; simp
              simp only [List.cons_append] at hw2
              injection hw2 with hd2 _
              have hall : ∀ y ∈ replaceMarker, y ≠ '\n' := by decide
              exact hall d hd (by rw [← hd2])
          · have : containsSeg repWindow (c :: re2) = true := by
              apply containsSeg_here
              exact ⟨w, by rw [hc, hw1, repWindow]; simp⟩
            rw [this] at hwin; cases hwin
        · subst hn
          simp only [List.cons_append, List.nil_append, List.append_assoc] at hs
          injection hs with hc _
          exact hcr c (by simp) hc
    rw [List.cons_append]
    simp only [findRep, hnone]
    rw [ih rest (fun d hd => hcr d (by simp [hd])) (containsSeg_cons_false hwin)]
    rfl

theorem findSepRep_append : ∀ (se R r a : List Char), (∀ c ∈ se, c ≠ '\r') →
    containsSeg sepWindow (se ++ ['\n']) = false →
    findRep R = some (r, a) →
    findSepRep (se ++ ('\n' :: (sepMarker ++ ('\n' :: R)))) = some (se, r, a) := by
  intro se
  induction se with
  | nil =>
    intro R r a _ _ hR
    show findSepRep ('\n' :: (sepMarker ++ ('\n' :: R))) = some ([], r, a)
    have h2 : dropMarker sepMarker (sepMarker ++ ('\n' :: R)) = some ('\n' :: R) :=
      (dropMarker_eq_some _ _ _).mpr rfl
    have h1 : hereSep ('\n' :: (sepMarker ++ ('\n' :: R))) = some (r, a) := by
      simp [hereSep, dropCRLF_lf, h2, hR]
    simp [findSepRep, h1]
  | cons c se2 ih =>
    intro R r a hcr hwin hR
    have hnone : hereSep (c :: (se2 ++ ('\n' :: (sepMarker ++ ('\n' :: R))))) = none := by
      cases hh : hereSep (c :: (se2 ++ ('\n' :: (sepMarker ++ ('\n' :: R))))) with
      | none => rfl
      | some x =>
        exfalso
        obtain ⟨r2, a2⟩ := x
        obtain ⟨n1, n2, n3, h1, h2, h3, hs⟩ := hereSep_sound hh
        rcases h1 with h1 | h1
        · subst h1
          simp only [List.cons_append, List.nil_append, List.append_assoc] at hs
          injection hs with hc hs2
          rcases List.append_eq_append_iff.mp hs2 with ⟨w, hw1, hw2⟩ | ⟨w, hw1, hw2⟩
          · cases w with
            | nil =>
              have hse : se2 = sepMarker := by simpa using hw1.symm
              have : containsSeg sepWindow ((c :: se2) ++ ['\n']) = true := by
                apply containsSeg_here
                exact ⟨[], by rw [hc, hse, sepWindow]; simp⟩
              rw [this] at hwin; cases hwin
            | cons d w2 =>
              have hd : d ∈ sepMarker := by rw [hw1]; simp
              simp only [List.cons_append] at hw2
              injection hw2 with hd2 _
              have hall : ∀ y ∈ sepMarker, y ≠ '\n' := by decide
              exact hall d hd (by rw [← hd2])
          · cases w with
            | nil =>
              have hse : se2 = sepMarker := by simpa using hw1
              have : containsSeg sepWindow ((c :: se2) ++ ['\n']) = true := by
                apply containsSeg_here
                exact ⟨[], by rw [hc, hse, sepWindow]; simp⟩
              rw [this] at hwin; cases hwin
            | cons d w2 =>
              have hd : d ∈ se2 := by rw [hw1]; simp
              rcases h2 with h2 | h2
              · subst h2
                simp only [List.cons_append, List.nil_append, List.append_assoc] at hw2
                injection hw2 with he _
                have : containsSeg sepWindow ((c :: se2) ++ ['\n']) = true := by
                  apply containsSeg_here
                  exact ⟨w2 ++ ['\n'], by rw [hc, hw1, ← he, sepWindow]; simp⟩
                rw [this] at hwin; cases hwin
              · subst h2
                simp only [List.cons_append, List.nil_append, List.append_assoc] at hw2
                injection hw2 with he _
                exact hcr d (by simp [hd]) (by rw [← he])
        · subst h1
          simp only [List.cons_append, List.nil_append, List.append_assoc] at hs
          injection hs with hc _
          exact hcr c (by simp) hc
    rw [List.cons_append]
    simp only [findSepRep, hnone]
    have hwin2 : containsSeg sepWindow (se2 ++ ['\n']) = false := by
      rw [List.cons_append] at hwin
      exact containsSeg_cons_false hwin
    rw [ih R r a (fun d hd => hcr d (by simp [hd])) hwin2 hR]
    rfl

theorem matchBlockAt_render {se re : List Char} (h : wfBlock se re) (rest : List Char) :
    matchBlockAt (renderBlock se re ++ rest) = some (se, re, rest) := by
  obtain ⟨hcr1, hcr2, hw1, hw2⟩ := h
  have hfr : findRep (re ++ ('\n' :: (replaceMarker ++ rest))) = some (re, rest) :=
    findRep_append re rest hcr2 hw2
  have hfs : findSepRep (se ++ ('\n' :: (sepMarker ++ ('\n' ::
      (re ++ ('\n' :: (replaceMarker ++ rest))))))) = some (se, re, rest) :=
    findSepRep_append se _ re rest hcr1 hw1 hfr
  have h0 : dropMarker searchMarker (renderBlock se re ++ rest) =
      some ('\n' :: (se ++ ('\n' :: (sepMarker ++ ('\n' ::
        (re ++ ('\n' :: (replaceMarker ++ rest)))))))) := by
    apply (dropMarker_eq_some _ _ _).mpr
    rw [renderBlock]
    simp [List.append_assoc]
  simp [matchBlockAt, h0, dropCRLF_lf, hfs]

theorem parseDiff_render {se re : List Char} (h : wfBlock se re) (rest : List Char) :
    parseDiff (renderBlock se re ++ rest) =
      { search := se, replace := re, applied := false } :: parseDiff rest :=
  parseDiff_cons_some (matchBlockAt_render h rest)

/-! ### The block applicator -/

theorem applyBlocksLoop_shift : ∀ (bs : List DiffBlock) (buf : List Char) (a f : Nat),
    applyBlocksLoop buf a f bs =
      ((applyBlocks buf bs).1, a + (applyBlocks buf bs).2.1, f + (applyBlocks buf bs).2.2) := by
  intro bs
  induction bs with
  | nil => intro buf a f; simp [applyBlocksLoop, applyBlocks]
  | cons b rest ih =>
    intro buf a f
    cases hr : replaceFirst b.search b.replace buf with
    | some nb =>
      simp only [applyBlocks, applyBlocksLoop, hr]
      rw [ih nb (a + 1) f, ih nb (0 + 1) 0]
      simp [Prod.mk.injEq]
      all_goals omega
    | none =>
      simp only [applyBlocks, applyBlocksLoop, hr]
      rw [ih buf a (f + 1), ih buf 0 (0 + 1)]
      simp [Prod.mk.injEq]
      all_goals omega

theorem applyBlocks_cons_some {b : DiffBlock} {buf nb : List Char} (rest : List DiffBlock)
    (hr : replaceFirst b.search b.replace buf = some nb) :
    applyBlocks buf (b :: rest) =
      ((applyBlocks nb rest).1, 1 + (applyBlocks nb rest).2.1, (applyBlocks nb rest).2.2) := by
  show applyBlocksLoop buf 0 0 (b :: rest) = _
  simp only [applyBlocksLoop, hr]
  rw [applyBlocksLoop_shift rest nb (0 + 1) 0]
  simp

theorem applyBlocks_cons_none {b : DiffBlock} {buf : List Char} (rest : List DiffBlock)
    (hr : replaceFirst b.search b.replace buf = none) :
    applyBlocks buf (b :: rest) =
      ((applyBlocks buf rest).1, (applyBlocks buf rest).2.1, 1 + (applyBlocks buf rest).2.2) := by
  show applyBlocksLoop buf 0 0 (b :: rest) = _
  simp only [applyBlocksLoop, hr]
  rw [applyBlocksLoop_shift rest buf 0 (0 + 1)]
  simp

theorem applyBlocks_append : ∀ (xs ys : List DiffBlock) (buf : List Char),
    applyBlocks buf (xs ++ ys) =
      ((applyBlocks (applyBlocks buf xs).1 ys).1,
        (applyBlocks buf xs).2.1 + (applyBlocks (applyBlocks buf xs).1 ys).2.1,
        (applyBlocks buf xs).2.2 + (applyBlocks (applyBlocks buf xs).1 ys).2.2) := by
  intro xs
  induction xs with
  | nil => intro ys buf; simp [applyBlocks, applyBlocksLoop]
  | cons b xs2 ih =>
    intro ys buf
    rw [List.cons_append]
    cases hr : replaceFirst b.search b.replace buf with
    | some nb =>
      rw [applyBlocks_cons_some (xs2 ++ ys) hr, applyBlocks_cons_some xs2 hr, ih ys nb]
      simp [Prod.mk.injEq]
      all_goals omega
    | none =>
      rw [applyBlocks_cons_none (xs2 ++ ys) hr, applyBlocks_cons_none xs2 hr, ih ys buf]
      simp [Prod.mk.injEq]
      all_goals omega

theorem applyBlocks_sum : ∀ (bs : List DiffBlock) (buf : List Char),
    (applyBlocks buf bs).2.1 + (applyBlocks buf bs).2.2 = bs.length := by
  intro bs
  induction bs with
  | nil => intro buf; simp [applyBlocks, applyBlocksLoop]
  | cons b rest ih =>
    intro buf
    cases hr : replaceFirst b.search b.replace buf with
    | some nb => rw [applyBlocks_cons_some rest hr]; simp only [List.length_cons]
                 have := ih nb; omega
    | none => rw [applyBlocks_cons_none rest hr]; simp only [List.length_cons]
              have := ih buf; omega

/-! ### Characterizing `replaceFirst` -/

theorem replaceFirst_none : ∀ (se rep buf : List Char),
    replaceFirst se rep buf = none ↔ ¬ ∃ pre post, buf = pre ++ (se ++ post) := by
  intro se rep buf
  induction buf with
  | nil =>
    cases hd : dropMarker se [] with
    | none =>
      have h2 : replaceFirst se rep [] = none := by simp [replaceFirst, hd]
      have hno : ¬ ∃ pre post, ([] : List Char) = pre ++ (se ++ post) := by
        rintro ⟨pre, post, hb⟩
        have hpre : pre = [] ∧ se ++ post = [] := List.append_eq_nil.mp hb.symm
        have hse : se = [] ∧ post = [] := List.append_eq_nil.mp hpre.2
        rw [hse.1] at hd
        simp [dropMarker] at hd
      exact ⟨fun _ => hno, fun _ => h2⟩
    | some t =>
      have h1 := (dropMarker_eq_some _ _ _).mp hd
      have h2 : replaceFirst se rep [] = some (rep ++ t) := by simp [replaceFirst, hd]
      constructor
      · intro hcon; rw [h2] at hcon; exact Option.noConfusion hcon
      · intro hno; exact (hno ⟨[], t, by simpa using h1⟩).elim
  | cons c rest ih =>
    cases hd : dropMarker se (c :: rest) with
    | some t =>
      have h1 := (dropMarker_eq_some _ _ _).mp hd
      have h2 : replaceFirst se rep (c :: rest) = some (rep ++ t) := by simp [replaceFirst, hd]
      constructor
      · intro hcon; rw [h2] at hcon; exact Option.noConfusion hcon
      · intro hno; exact (hno ⟨[], t, by simpa using h1⟩).elim
    | none =>
      have heq : replaceFirst se rep (c :: rest) = (replaceFirst se rep rest).map fun x => c :: x := by
        simp [replaceFirst, hd]
      rw [heq, Option.map_eq_none', ih]
      constructor
      · rintro h ⟨pre, post, hb⟩
        cases pre with
        | nil =>
          have : dropMarker se (c :: rest) = some post :=
            (dropMarker_eq_some _ _ _).mpr (by simpa using hb)
          rw [this] at hd
          exact Option.noConfusion hd
        | cons c2 pre2 =>
          rw [List.cons_append] at hb
          injection hb with h1 h2
          exact h ⟨pre2, post, h2⟩
      · rintro h ⟨pre, post, hb⟩
        exact h ⟨c :: pre, post, by rw [hb, List.cons_append]⟩

theorem replaceFirst_some : ∀ (se rep buf out : List Char),
    replaceFirst se rep buf = some out →
    ∃ pre post, buf = pre ++ (se ++ post) ∧ out = pre ++ (rep ++ post) ∧
      ∀ pre2 post2, buf = pre2 ++ (se ++ post2) → pre.length ≤ pre2.length := by
  intro se rep buf
  induction buf with
  | nil =>
    intro out h
    cases hd : dropMarker se [] with
    | none => simp [replaceFirst, hd] at h
    | some t =>
      have h1 := (dropMarker_eq_some _ _ _).mp hd
      have h2 : replaceFirst se rep [] = some (rep ++ t) := by simp [replaceFirst, hd]
      rw [h2] at h
      injection h with h3
      exact ⟨[], t, by simpa using h1, by simp [← h3], fun pre2 post2 _ => by simp⟩
  | cons c rest ih =>
    intro out h
    cases hd : dropMarker se (c :: rest) with
    | some t =>
      have h1 := (dropMarker_eq_some _ _ _).mp hd
      have h2 : replaceFirst se rep (c :: rest) = some (rep ++ t) := by simp [replaceFirst, hd]
      rw [h2] at h
      injection h with h3
      exact ⟨[], t, by simpa using h1, by simp [← h3], fun pre2 post2 _ => by simp⟩
    | none =>
      have heq : replaceFirst se rep (c :: rest) = (replaceFirst se rep rest).map fun x => c :: x := by
        simp [replaceFirst, hd]
      rw [heq, Option.map_eq_some'] at h
      obtain ⟨out2, hout2, hmap⟩ := h
      obtain ⟨pre, post, hb, ho, hmin⟩ := ih out2 hout2
      refine ⟨c :: pre, post, ?_, ?_, ?_⟩
      · rw [List.cons_append, ← hb]
      · rw [← hmap, List.cons_append, ho]
      · intro pre2 post2 hb2
        cases pre2 with
        | nil =>
          exfalso
          have : dropMarker se (c :: rest) = some post2 :=
            (dropMarker_eq_some _ _ _).mpr (by simpa using hb2)
          rw [this] at hd
          exact Option.noConfusion hd
        | cons c2 pre3 =>
          rw [List.cons_append] at hb2
          injection hb2 with hcc hb3
          have := hmin pre3 post2 hb3
          simp only [List.length_cons]
          omega

/-! ### The claims -/

/-- C1: for every update call in which at least one block was parsed from the
diff, the file at the resolved path is overwritten with the final working
buffer if and only if `blocksApplied > 0`; when `blocksApplied = 0` (all
parsed blocks failed to match) no write is performed and the filesystem is
unchanged. -/
theorem claim_C1 (resolve : String → String) (fs : String → Option (List Char))
    (path : String) (diff : List Char) (c : List Char)
    (hfs : fs (resolve path) = some c) (hne : parseDiff diff ≠ []) :
    (0 < (applyBlocks c (parseDiff diff)).2.1 →
      updateFileLogic resolve fs path diff =
        (Except.ok (UpdateFileOutput.mk (resolve path)
            (applyBlocks c (parseDiff diff)).2.1
            (applyBlocks c (parseDiff diff)).2.2),
          fun p => if p = resolve path then some (applyBlocks c (parseDiff diff)).1
            else fs p)) ∧
    ((applyBlocks c (parseDiff diff)).2.1 = 0 →
      updateFileLogic resolve fs path diff =
        (Except.ok (UpdateFileOutput.mk (resolve path) 0
            (applyBlocks c (parseDiff diff)).2.2), fs)) := by
  have hlen : ¬ (parseDiff diff).length = 0 := fun h => hne (List.length_eq_zero.mp h)
  constructor
  · intro hpos
    simp only [updateFileLogic, hfs]
    rw [if_neg hlen, if_pos hpos]
  · intro hzero
    simp only [updateFileLogic, hfs]
    rw [if_neg hlen, if_neg (by omega)]

theorem claim_C1_witness :
    updateFileLogic (fun p => p) (fun p => if p = "f" then some ['A'] else none) "f"
        "<<<<<<< SEARCH\nA\n=======\nB\n>>>>>>> REPLACE".data =
      (Except.ok (UpdateFileOutput.mk "f"
          (applyBlocks ['A']
            (parseDiff "<<<<<<< SEARCH\nA\n=======\nB\n>>>>>>> REPLACE".data)).2.1
          (applyBlocks ['A']
            (parseDiff "<<<<<<< SEARCH\nA\n=======\nB\n>>>>>>> REPLACE".data)).2.2),
        fun p => if p = "f" then
            some (applyBlocks ['A']
              (parseDiff "<<<<<<< SEARCH\nA\n=======\nB\n>>>>>>> REPLACE".data)).1
          else (fun q => if q = "f" then some ['A'] else none) p) :=
  (claim_C1 (fun p => p) (fun p => if p = "f" then some ['A'] else none) "f"
      "<<<<<<< SEARCH\nA\n=======\nB\n>>>>>>> REPLACE".data ['A'] rfl
      (by decide)).1 (by decide)

/-- C2: the applicator is a left fold: applying a concatenation of block
lists processes the first list and then the second starting from the first
list's final buffer, summing the counters; in particular the blocks
`A → B` then `B → C` applied to buffer `A` yield `C` with two applied. -/
theorem claim_C2 :
    (∀ (buf : List Char) (xs ys : List DiffBlock),
      applyBlocks buf (xs ++ ys) =
        ((applyBlocks (applyBlocks buf xs).1 ys).1,
          (applyBlocks buf xs).2.1 + (applyBlocks (applyBlocks buf xs).1 ys).2.1,
          (applyBlocks buf xs).2.2 + (applyBlocks (applyBlocks buf xs).1 ys).2.2)) ∧
    applyBlocks ['A'] [{ search := ['A'], replace := ['B'], applied := false },
        { search := ['B'], replace := ['C'], applied := false }] = (['C'], 2, 0) :=
  ⟨fun buf xs ys => applyBlocks_append xs ys buf, by decide⟩

/-- C3: a successful substitution replaces exactly the first (leftmost)
occurrence of the search text, leaving the rest of the buffer intact; on
buffer `xx` replacing `x` by `y` gives `yx`, not `yy`. -/
theorem claim_C3 :
    (∀ (se rep buf out : List Char), replaceFirst se rep buf = some out →
      ∃ pre post, buf = pre ++ (se ++ post) ∧ out = pre ++ (rep ++ post) ∧
        ∀ pre2 post2, buf = pre2 ++ (se ++ post2) → pre.length ≤ pre2.length) ∧
    replaceFirst ['x'] ['y'] ['x', 'x'] = some ['y', 'x'] :=
  ⟨replaceFirst_some, by decide⟩

theorem claim_C3_witness :
    ∃ pre post, ['x', 'x'] = pre ++ (['x'] ++ post) ∧ ['y', 'x'] = pre ++ (['y'] ++ post) ∧
      ∀ pre2 post2, ['x', 'x'] = pre2 ++ (['x'] ++ post2) → pre.length ≤ pre2.length :=
  claim_C3.1 ['x'] ['y'] ['x', 'x'] ['y', 'x'] (by decide)

/-- C4: a block whose search text does not occur in the current buffer
leaves the buffer unchanged and increments `blocksFailed` only; and an
update call on an existing file always returns a successful result (search
misses are data, never an error of the overall call). -/
theorem claim_C4 :
    (∀ (b : DiffBlock) (buf : List Char) (rest : List DiffBlock),
      (¬ ∃ pre post, buf = pre ++ (b.search ++ post)) →
      applyBlocks buf (b :: rest) =
        ((applyBlocks buf rest).1, (applyBlocks buf rest).2.1,
          1 + (applyBlocks buf rest).2.2)) ∧
    (∀ (resolve : String → String) (fs : String → Option (List Char))
      (path : String) (diff : List Char) (c : List Char),
      fs (resolve path) = some c →
      ∃ out fs2, updateFileLogic resolve fs path diff = (Except.ok out, fs2)) := by
  constructor
  · intro b buf rest hno
    exact applyBlocks_cons_none rest ((replaceFirst_none _ _ _).mpr hno)
  · intro resolve fs path diff c hfs
    simp only [updateFileLogic, hfs]
    by_cases h : (parseDiff diff).length = 0
    · rw [if_pos h]; exact ⟨_, _, rfl⟩
    · rw [if_neg h]
      by_cases h2 : 0 < (applyBlocks c (parseDiff diff)).2.1
      · rw [if_pos h2]; exact ⟨_, _, rfl⟩
      · rw [if_neg h2]; exact ⟨_, _, rfl⟩

theorem claim_C4_witness :
    (applyBlocks "abc".data [{ search := "zzz".data, replace := ['y'], applied := false }] =
      ((applyBlocks "abc".data []).1, (applyBlocks "abc".data []).2.1,
        1 + (applyBlocks "abc".data []).2.2)) ∧
    (∃ out fs2, updateFileLogic (fun p => p) (fun _ => some ['a']) "f" ['q'] =
      (Except.ok out, fs2)) :=
  ⟨claim_C4.1 { search := "zzz".data, replace := ['y'], applied := false } "abc".data []
      ((replaceFirst_none "zzz".data ['y'] "abc".data).mp (by decide)),
    claim_C4.2 (fun p => p) (fun _ => some ['a']) "f" ['q'] ['a'] rfl⟩

/-- C5: when the resolved target file does not exist the call fails with
`NOT_FOUND` and the filesystem is unchanged (no write, no file created). -/
theorem claim_C5 (resolve : String → String) (fs : String → Option (List Char))
    (path : String) (diff : List Char) (h : fs (resolve path) = none) :
    updateFileLogic resolve fs path diff = (Except.error BaseErrorCode.NOT_FOUND, fs) := by
  simp only [updateFileLogic, h]

theorem claim_C5_witness :
    updateFileLogic (fun p => p) (fun _ => none) "a" ['x'] =
      (Except.error BaseErrorCode.NOT_FOUND, fun _ => none) :=
  claim_C5 (fun p => p) (fun _ => none) "a" ['x'] rfl

/-- C6: when the parser recognizes zero blocks on an existing file, the call
succeeds with both counters zero and the filesystem is unchanged (no
rewrite). -/
theorem claim_C6 (resolve : String → String) (fs : String → Option (List Char))
    (path : String) (diff : List Char) (c : List Char)
    (hfs : fs (resolve path) = some c) (hz : parseDiff diff = []) :
    updateFileLogic resolve fs path diff =
      (Except.ok { updatedPath := resolve path, blocksApplied := 0, blocksFailed := 0 },
        fs) := by
  simp only [updateFileLogic, hfs]
  rw [if_pos (by rw [hz]; rfl)]

theorem claim_C6_witness :
    updateFileLogic (fun p => p) (fun _ => some "hello".data) "f" "not a valid diff".data =
      (Except.ok { updatedPath := "f", blocksApplied := 0, blocksFailed := 0 },
        fun _ => some "hello".data) :=
  claim_C6 (fun p => p) (fun _ => some "hello".data) "f" "not a valid diff".data
    "hello".data rfl (by decide)

/-- C7: parsing round-trip: a concatenation of well-formed block triples,
each preceded by arbitrary interstitial whitespace and followed by trailing
whitespace, parses to exactly those blocks in order with search and replace
texts preserved exactly. -/
theorem claim_C7 (items : List (List Char × List Char × List Char)) (final : List Char)
    (hws : ∀ x ∈ items, ∀ c ∈ x.1, isWhite c)
    (hwf : ∀ x ∈ items, wfBlock x.2.1 x.2.2)
    (hfin : ∀ c ∈ final, isWhite c) :
    parseDiff (renderSeq items ++ final) =
      items.map fun x => { search := x.2.1, replace := x.2.2, applied := false } := by
  have hlt : ∀ (c : Char), isWhite c → c ≠ '<' := by
    intro c hc
    rcases hc with h | h | h | h <;> subst h <;> decide
  induction items with
  | nil =>
    show parseDiff ([] ++ final) = []
    rw [List.nil_append]
    calc parseDiff final = parseDiff (final ++ []) := by rw [List.append_nil]
      _ = parseDiff [] := parseDiff_skip (fun c hc => hlt c (hfin c hc)) []
      _ = [] := rfl
  | cons x items2 ih =>
    show parseDiff ((x.1 ++ renderBlock x.2.1 x.2.2 ++ renderSeq items2) ++ final) = _
    simp only [List.append_assoc]
    rw [parseDiff_skip (fun c hc => hlt c (hws x (by simp) c hc))]
    rw [parseDiff_render (hwf x (by simp))]
    rw [ih (fun y hy => hws y (by simp [hy])) (fun y hy => hwf y (by simp [hy]))]
    simp

theorem claim_C7_witness :
    parseDiff (renderSeq [([' '], ['a'], ['b']), (['\n'], ['c'], ['d'])] ++ ['\t']) =
      [{ search := ['a'], replace := ['b'], applied := false },
        { search := ['c'], replace := ['d'], applied := false }] :=
  claim_C7 [([' '], ['a'], ['b']), (['\n'], ['c'], ['d'])] ['\t']
    (by decide) (by decide) (by decide)

/-- C8 as stated is false; counterexample: the non-empty diff text whose
SEARCH marker line is immediately followed by the separator line parses to a
block whose search text is empty. -/
theorem claim_C8_counterexample :
    "<<<<<<< SEARCH\n\n=======\nb\n>>>>>>> REPLACE".data ≠ [] ∧
    ∃ b ∈ parseDiff "<<<<<<< SEARCH\n\n=======\nb\n>>>>>>> REPLACE".data,
      b.search = [] := by decide

/-- C8 amended: a parsed block's search text is the (possibly empty) text
between the SEARCH marker line and the separator line, so a non-empty diff
can produce a block with empty search text; the empty diff yields no
blocks. -/
theorem claim_C8 :
    (∀ re : List Char, wfBlock [] re →
      parseDiff (renderBlock [] re) =
        [{ search := [], replace := re, applied := false }]) ∧
    parseDiff [] = [] := by
  refine ⟨fun re h => ?_, rfl⟩
  have h2 := parseDiff_render h []
  rw [List.append_nil] at h2
  rw [h2, parseDiff_nil]

theorem claim_C8_witness :
    parseDiff (renderBlock [] ['b']) =
      [{ search := [], replace := ['b'], applied := false }] :=
  claim_C8.1 ['b'] (by decide)

/-- C9 as stated is false; counterexample: a diff whose SEARCH marker shares
its line with a preceding character still contributes a block. -/
theorem claim_C9_counterexample :
    parseDiff "x<<<<<<< SEARCH\na\n=======\nb\n>>>>>>> REPLACE".data =
      [{ search := ['a'], replace := ['b'], applied := false }] ∧
    parseDiff "x<<<<<<< SEARCH\na\n=======\nb\n>>>>>>> REPLACE".data ≠ [] := by
  decide

/-- C9 amended: every recognized block decomposes the text as
`<<<<<<< SEARCH`, a newline, the search text, a newline, `=======`, a
newline, the replace text, a newline, `>>>>>>> REPLACE` — so the separator
must occupy its own line and the SEARCH (resp. REPLACE) marker must be
immediately followed (resp. preceded) by a newline, but characters before
`<<<<<<< SEARCH` on its line or after `>>>>>>> REPLACE` on its line are
allowed and do not prevent recognition. -/
theorem claim_C9 :
    (∀ s se re after, matchBlockAt s = some (se, re, after) →
      ∃ n0 n1 n2 n3, nlOK n0 ∧ nlOK n1 ∧ nlOK n2 ∧ nlOK n3 ∧
        s = searchMarker ++ n0 ++ se ++ n1 ++ sepMarker ++ n2 ++ re ++ n3 ++
          replaceMarker ++ after) ∧
    parseDiff "x<<<<<<< SEARCH\na\n=======\nb\n>>>>>>> REPLACEz".data =
      [{ search := ['a'], replace := ['b'], applied := false }] ∧
    parseDiff "<<<<<<< SEARCHx\na\n=======\nb\n>>>>>>> REPLACE".data = [] ∧
    parseDiff "<<<<<<< SEARCH\na\n=======x\nb\n>>>>>>> REPLACE".data = [] ∧
    parseDiff "<<<<<<< SEARCH\na\nx=======\nb\n>>>>>>> REPLACE".data = [] :=
  ⟨fun _ _ _ _ h => matchBlockAt_sound h, by decide, by decide, by decide, by decide⟩

theorem claim_C9_witness :
    ∃ n0 n1 n2 n3, nlOK n0 ∧ nlOK n1 ∧ nlOK n2 ∧ nlOK n3 ∧
      "<<<<<<< SEARCH\na\n=======\nb\n>>>>>>> REPLACE".data =
        searchMarker ++ n0 ++ ['a'] ++ n1 ++ sepMarker ++ n2 ++ ['b'] ++ n3 ++
          replaceMarker ++ [] :=
  claim_C9.1 "<<<<<<< SEARCH\na\n=======\nb\n>>>>>>> REPLACE".data ['a'] ['b'] []
    (by decide)

/-- C10: whenever the update call returns a result, the two counters
partition the parsed blocks: `blocksApplied + blocksFailed` equals the
number of blocks the parser produced from the diff text. -/
theorem claim_C10 (resolve : String → String) (fs : String → Option (List Char))
    (path : String) (diff : List Char) (out : UpdateFileOutput)
    (h : (updateFileLogic resolve fs path diff).1 = Except.ok out) :
    out.blocksApplied + out.blocksFailed = (parseDiff diff).length := by
  cases hfs : fs (resolve path) with
  | none =>
    have hv : updateFileLogic resolve fs path diff =
        (Except.error BaseErrorCode.NOT_FOUND, fs) := by
      simp only [updateFileLogic, hfs]
    rw [hv] at h
    cases h
  | some c =>
    by_cases h0 : (parseDiff diff).length = 0
    · have hv : updateFileLogic resolve fs path diff =
          (Except.ok (UpdateFileOutput.mk (resolve path) 0 0), fs) := by
        simp only [updateFileLogic, hfs]
        rw [if_pos h0]
      rw [hv] at h
      simp only [Except.ok.injEq] at h
      rw [← h]
      show 0 + 0 = (parseDiff diff).length
      omega
    · by_cases h1 : 0 < (applyBlocks c (parseDiff diff)).2.1
      · have hv : (updateFileLogic resolve fs path diff).1 =
            Except.ok (UpdateFileOutput.mk (resolve path)
              (applyBlocks c (parseDiff diff)).2.1
              (applyBlocks c (parseDiff diff)).2.2) := by
          simp only [updateFileLogic, hfs]
          rw [if_neg h0, if_pos h1]
        rw [hv] at h
        simp only [Except.ok.injEq] at h
        rw [← h]
        exact applyBlocks_sum (parseDiff diff) c
      · have hv : (updateFileLogic resolve fs path diff).1 =
            Except.ok (UpdateFileOutput.mk (resolve path) 0
              (applyBlocks c (parseDiff diff)).2.2) := by
          simp only [updateFileLogic, hfs]
          rw [if_neg h0, if_neg h1]
        rw [hv] at h
        simp only [Except.ok.injEq] at h
        rw [← h]
        show 0 + (applyBlocks c (parseDiff diff)).2.2 = (parseDiff diff).length
        have hsum := applyBlocks_sum (parseDiff diff) c
        omega

theorem claim_C10_witness :
    (UpdateFileOutput.mk "f"
        (applyBlocks ['A']
          (parseDiff "<<<<<<< SEARCH\nA\n=======\nB\n>>>>>>> REPLACE".data)).2.1
        (applyBlocks ['A']
          (parseDiff "<<<<<<< SEARCH\nA\n=======\nB\n>>>>>>> REPLACE".data)).2.2).blocksApplied +
      (UpdateFileOutput.mk "f"
        (applyBlocks ['A']
          (parseDiff "<<<<<<< SEARCH\nA\n=======\nB\n>>>>>>> REPLACE".data)).2.1
        (applyBlocks ['A']
          (parseDiff "<<<<<<< SEARCH\nA\n=======\nB\n>>>>>>> REPLACE".data)).2.2).blocksFailed =
    (parseDiff "<<<<<<< SEARCH\nA\n=======\nB\n>>>>>>> REPLACE".data).length :=
  claim_C10 (fun p => p) (fun _ => some ['A']) "f"
    "<<<<<<< SEARCH\nA\n=======\nB\n>>>>>>> REPLACE".data _ rfl

end FsMcp
